import Mathlib

/-!
Verification of the LocustDB vectorized/legacy query engine core against its
natural-language specification.

The definitions below are shallow embeddings of the Rust sources under `src/`:
`query_engine.rs`, `mem_store/integers.rs`, `ingest/csv_loader.rs`,
`engine/vector_op/addition_vs.rs`, `engine/vector_op/vec_const_bool_op.rs`.
Machine integers (Rust `i64`) are embedded as `Int` with explicit
two's-complement wrapping (`wrap64`) wherever overflow matters; Rust release
mode wraps on overflow, which is also the overflow policy the specification
states (§7, "arithmetic overflow policy: wrap").

Parts of the repository that the sources under `src/` reference but that are
not present there (`value.rs`, `expression.rs`, `aggregator.rs`, `limit.rs`,
`engine/types.rs`, the column builders) are modelled from the specification;
each such definition carries a doc comment starting `Modelled from the spec:`.
-/

namespace LocustDB

/-- Lower bound of the Rust `i64` range, as a mathematical integer. -/
def i64Min : Int := -(2 ^ 63)

/-- Upper bound of the Rust `i64` range, as a mathematical integer. -/
def i64Max : Int := 2 ^ 63 - 1

/-- Two's-complement wrap of a mathematical integer into the `i64` range.
This is the result Rust release-mode arithmetic produces on overflow, and the
overflow policy stated by the specification (§7: "wrap"). -/
def wrap64 (x : Int) : Int := (x + 2 ^ 63) % (2 ^ 64) - 2 ^ 63

theorem wrap64_lower (x : Int) : i64Min ≤ wrap64 x := by
  unfold wrap64 i64Min
  omega

theorem wrap64_upper (x : Int) : wrap64 x ≤ i64Max := by
  unfold wrap64 i64Max
  omega

theorem wrap64_dvd_sub (x : Int) : (2 ^ 64 : Int) ∣ (x - wrap64 x) := by
  refine ⟨(x + 2 ^ 63) / 2 ^ 64, ?_⟩
  unfold wrap64
  omega

theorem wrap64_eq_self {x : Int} (h1 : i64Min ≤ x) (h2 : x ≤ i64Max) :
    wrap64 x = x := by
  unfold wrap64
  unfold i64Min at h1
  unfold i64Max at h2
  omega

theorem wrap64_congr {a b : Int} (h : (2 ^ 64 : Int) ∣ (a - b)) :
    wrap64 a = wrap64 b := by
  obtain ⟨k, hk⟩ := h
  unfold wrap64
  omega

theorem wrap64_add_left (a b : Int) : wrap64 (wrap64 a + b) = wrap64 (a + b) := by
  apply wrap64_congr
  obtain ⟨k, hk⟩ := wrap64_dvd_sub a
  exact ⟨-k, by omega⟩

/-! ### Encoded integer columns (`mem_store/integers.rs`) -/

/-- The three narrow code widths of `IntegerOffsetColumn<T>`. -/
inductive Width where
  | u8
  | u16
  | u32
deriving DecidableEq, Repr

/-- `W::MAX` for each code width, as in `std::{u8,u16,u32}`. -/
def Width.max : Width → Int
  | .u8 => 255
  | .u16 => 65535
  | .u32 => 4294967295

/-- The encoding chosen by `IntegerColumn::new`: an offset column of some
width, or the plain `IntegerColumn` over `i64`. -/
inductive IntColumnChoice where
  | offset (w : Width)
  | plain
deriving DecidableEq, Repr

/-- `IntegerColumn::new(values, min, max)` branch structure
(`mem_store/integers.rs:18`): compares `max - min` (an `i64` subtraction,
hence wrapping) against `u8::MAX`, `u16::MAX`, `u32::MAX` in turn. -/
def integerColumnNew (min max : Int) : IntColumnChoice :=
  let diff := wrap64 (max - min)
  if diff ≤ 255 then .offset .u8
  else if diff ≤ 65535 then .offset .u16
  else if diff ≤ 4294967295 then .offset .u32
  else .plain

/-- The specification's words (§8 Type-width selection): "the encoding is the
narrowest of {u8,u16,u32,i64} such that `max − min ≤ W::MAX`", with the
subtraction read as exact integer subtraction. -/
def narrowestWidthSpec (min max : Int) : IntColumnChoice :=
  if max - min ≤ Width.max .u8 then .offset .u8
  else if max - min ≤ Width.max .u16 then .offset .u16
  else if max - min ≤ Width.max .u32 then .offset .u32
  else .plain

/-- `num::NumCast`: `T::from(x)` for an unsigned width succeeds exactly when
`x` lies in `[0, W::MAX]`, returning the value unchanged. -/
def widthFrom (w : Width) (x : Int) : Option Int :=
  if 0 ≤ x ∧ x ≤ w.max then some x else none

/-- `IntegerOffsetColumn::<T>::new` encoding of one value
(`mem_store/integers.rs:60`): `T::from(v - offset)`, where `v - offset` is an
`i64` subtraction. `none` models the `.unwrap()` panic. -/
def encodeOffset (w : Width) (offsetVal v : Int) : Option Int :=
  widthFrom w (wrap64 (v - offsetVal))

/-- `PointCodec::decode` for `IntegerOffsetColumn` on one code
(`mem_store/integers.rs:93`): `value.to_i64().unwrap() + self.offset`, an
`i64` addition. -/
def decodeOffset (offsetVal code : Int) : Int := wrap64 (code + offsetVal)

/-- Subset of `engine::types::Type` tags returned by the `IntLike` impls.
Modelled from the spec: `engine/types.rs` is not under `src/`; only the tag
constructors named in `mem_store/integers.rs` are needed. -/
inductive Ty where
  | U8
  | U16
  | U32
  | I64
  | RefU8
  | RefU16
  | RefU32
deriving DecidableEq, Repr

/-- `IntLike::t()` per width (`mem_store/integers.rs:142,155,168`): the
`u16` and `u32` impls also return `Type::U8`. -/
def intLikeT : Width → Ty
  | .u8 => .U8
  | .u16 => .U8
  | .u32 => .U8

/-- `IntLike::t_ref()` per width (`mem_store/integers.rs:143,156,169`). -/
def intLikeTRef : Width → Ty
  | .u8 => .RefU8
  | .u16 => .RefU8
  | .u32 => .RefU8

/-- `ColumnCodec::encoded_type` for `IntegerOffsetColumn<T>` is `T::t()`
(`mem_store/integers.rs:116`). -/
def encodedType (w : Width) : Ty := intLikeT w

/-- `ColumnCodec::ref_encoded_type` for `IntegerOffsetColumn<T>` is
`T::t_ref()` (`mem_store/integers.rs:117`). -/
def refEncodedType (w : Width) : Ty := intLikeTRef w

/-! ### Runtime values and expressions (`value.rs`, `expression.rs`) -/

/-- Modelled from the spec: `value.rs` is not under `src/`. The runtime value
`Val` used by `query_engine.rs` (§3 RawVal variants plus the `Bool` produced
by predicate evaluation, compared against `Val::Bool(true)` at
`query_engine.rs:185`). -/
inductive Val where
  | Null
  | Bool (b : Bool)
  | Int (i : Int)
  | Str (s : String)
deriving DecidableEq, Repr

/-- Modelled from the spec: `mem_store/ingest.rs` is not under `src/`.
`RawVal` is the boundary-layer tagged value (§3): {Null, Int(i64), Str}. -/
inductive RawVal where
  | Null
  | Int (i : Int)
  | Str (s : String)
deriving DecidableEq, Repr

/-- Modelled from the spec: `RawVal::from(&Val)` used at
`query_engine.rs:149`. Int and Str map to their RawVal counterparts; the
spec gives `RawVal` no boolean variant, so `Bool` falls back to `Null`.
No verified claim materializes a boolean into a result row. -/
def rawValFrom : Val → RawVal
  | .Null => .Null
  | .Bool _ => .Null
  | .Int i => .Int i
  | .Str s => .Str s

/-- Modelled from the spec: `expression.rs` is not under `src/`.
`FuncType` variants (§3). -/
inductive FuncType where
  | Equals
  | LT
  | GT
  | And
  | Or
  | Negate
  | Add
  | RegexMatch
deriving DecidableEq, Repr

/-- Modelled from the spec: `expression.rs` is not under `src/`. `Expr` (§3)
with variants Const, ColName and Func; `Col` is the compiled form of
`ColName` produced by `Expr::compile` (a column index into the record). -/
inductive Expr where
  | Const (v : Val)
  | ColName (s : String)
  | Col (i : Nat)
  | Func (f : FuncType) (a b : Expr)
deriving DecidableEq, Repr

/-- Modelled from the spec: `Expr::eval(&record)` as used by
`query_engine.rs`. Comparisons produce `Val::Bool`; `Add`/`Negate` are
wrapping `i64` arithmetic (§7: overflow wraps); `And`/`Or` are boolean;
ill-typed applications and uncompiled `ColName`/`RegexMatch` (which no
verified claim exercises) fall back to `Val.Null` / `Val.Bool false`. -/
def Expr.eval (record : List Val) : Expr → Val
  | .Const v => v
  | .ColName _ => .Null
  | .Col i => record.getD i .Null
  | .Func .Equals a b => .Bool (decide (Expr.eval record a = Expr.eval record b))
  | .Func .LT a b =>
    match Expr.eval record a, Expr.eval record b with
    | .Int x, .Int y => .Bool (decide (x < y))
    | _, _ => .Bool false
  | .Func .GT a b =>
    match Expr.eval record a, Expr.eval record b with
    | .Int x, .Int y => .Bool (decide (x > y))
    | _, _ => .Bool false
  | .Func .And a b =>
    match Expr.eval record a, Expr.eval record b with
    | .Bool x, .Bool y => .Bool (x && y)
    | _, _ => .Bool false
  | .Func .Or a b =>
    match Expr.eval record a, Expr.eval record b with
    | .Bool x, .Bool y => .Bool (x || y)
    | _, _ => .Bool false
  | .Func .Add a b =>
    match Expr.eval record a, Expr.eval record b with
    | .Int x, .Int y => .Int (wrap64 (x + y))
    | _, _ => .Null
  | .Func .Negate a _ =>
    match Expr.eval record a with
    | .Int x => .Int (wrap64 (-x))
    | _ => .Null
  | .Func .RegexMatch _ _ => .Bool false

/-! ### Aggregators (`aggregator.rs`) -/

/-- Modelled from the spec: `aggregator.rs` is not under `src/`.
`Aggregator` variants (§3): Count and Sum. -/
inductive Aggregator where
  | Count
  | Sum
deriving DecidableEq, Repr

/-- Wrapping `i64` addition on runtime values, the operation behind both
aggregators (§4.6: "Count: add; Sum: add"); non-integer operands have no
meaning for Count/Sum accumulation and fall back to `Val.Null`. -/
def addVal : Val → Val → Val
  | .Int a, .Int b => .Int (wrap64 (a + b))
  | _, _ => .Null

/-- Modelled from the spec: `Aggregator::zero()` used at
`query_engine.rs:209` — empty-set identity, 0 for Count and 0 for Sum (§7). -/
def Aggregator.zero : Aggregator → Val
  | .Count => .Int 0
  | .Sum => .Int 0

/-- Modelled from the spec: `Aggregator::reduce(&acc, &val)` used at
`query_engine.rs:211` — Count increments per row passing the filter, Sum adds
the evaluated value (§4.6). -/
def Aggregator.reduce : Aggregator → Val → Val → Val
  | .Count, acc, _ => addVal acc (.Int 1)
  | .Sum, acc, v => addVal acc v

/-- Modelled from the spec: `Aggregator::combine(&a, &b)` used at
`query_engine.rs:125` — cross-batch merge, addition for both Count and Sum
(§4.6). -/
def Aggregator.combine : Aggregator → Val → Val → Val
  | .Count, a, b => addVal a b
  | .Sum, a, b => addVal a b

/-! ### Per-batch query execution (`query_engine.rs:160-224`) -/

/-- Modelled from the spec: `limit.rs` is not under `src/`. `LimitClause`
(§3: "limit: {limit, offset}"); `query_engine.rs` reads both fields
`as usize`. -/
structure LimitClause where
  limit : Nat
  offset : Nat
deriving DecidableEq, Repr

/-- A compiled single-batch query (`query_engine.rs:39`): the compiled
select, filter and aggregate expressions plus the referenced columns.
`cols` stands for `coliter`: the decoded value streams of the referenced
columns, in `efficient_source` order. -/
structure CompiledSingleBatchQuery where
  select : List Expr
  filter : Expr
  aggregate : List (Aggregator × Expr)
  cols : List (List Val)
deriving DecidableEq, Repr

/-- The record stream assembled by the per-batch loops
(`query_engine.rs:172-184,197-204`): each iteration takes the next element
of every column iterator (first column first) and stops as soon as any
iterator is exhausted. Structural recursion on the first column. -/
def zipRecords : List Val → List (List Val) → List (List Val)
  | [], _ => []
  | v :: vs, rest =>
    if rest.any List.isEmpty then []
    else (v :: rest.map (fun c => c.headD .Null)) :: zipRecords vs (rest.map List.tail)

/-- All records of a batch. The empty-`coliter` case is special-cased by
both per-batch loops and handled at their level, not here. -/
def batchRecords : List (List Val) → List (List Val)
  | [] => []
  | c :: cs => zipRecords c cs

/-- `CompiledSingleBatchQuery::run_select_query` (`query_engine.rs:161`):
returns immediately if there are no column iterators; otherwise pushes, for
every record whose filter evaluates to `Val::Bool(true)`, the evaluated
select expressions, in scan order. -/
def runSelectQuery (q : CompiledSingleBatchQuery) : List (List Val) :=
  if q.cols.isEmpty then []
  else
    ((batchRecords q.cols).filter fun r => decide (q.filter.eval r = .Bool true)).map
      fun r => q.select.map fun e => e.eval r

/-- Association-list lookup standing for `HashMap::get` on the groups map;
the map's observable content is exactly this lookup function. -/
def lookupGroup (groups : List (List Val × List Val)) (key : List Val) :
    Option (List Val) :=
  match groups with
  | [] => none
  | (k, v) :: rest => if key = k then some v else lookupGroup rest key

/-- Association-list insert-or-replace standing for writes to the groups
`HashMap` (`entry().or_insert` / in-place accumulator update). -/
def updateGroup (groups : List (List Val × List Val)) (key : List Val)
    (v : List Val) : List (List Val × List Val) :=
  match groups with
  | [] => [(key, v)]
  | (k, w) :: rest =>
    if key = k then (k, v) :: rest else (k, w) :: updateGroup rest key v

/-- The per-row accumulator update (`query_engine.rs:210-212`):
`accumulator[i] = agg_func.reduce(&accumulator[i], &expr.eval(&record))` for
each aggregate. -/
def reduceAccs (record : List Val) :
    List (Aggregator × Expr) → List Val → List Val
  | (agg, e) :: aggs, acc :: accs =>
    agg.reduce acc (e.eval record) :: reduceAccs record aggs accs
  | _, _ => []

/-- One iteration of the aggregation loop (`query_engine.rs:205-213`): if the
filter holds, evaluate the select expressions into the group key, fetch or
initialize (`or_insert` with `Aggregator::zero`) its accumulator, and reduce
every aggregate into it. -/
def stepAgg (q : CompiledSingleBatchQuery)
    (groups : List (List Val × List Val)) (record : List Val) :
    List (List Val × List Val) :=
  if q.filter.eval record = .Bool true then
    let key := q.select.map fun e => e.eval record
    let acc0 := (lookupGroup groups key).getD (q.aggregate.map fun a => a.1.zero)
    updateGroup groups key (reduceAccs record q.aggregate acc0)
  else groups

/-- `CompiledSingleBatchQuery::run_aggregation_query`
(`query_engine.rs:192`): folds the aggregation step over the record stream.
When `coliter` is empty the loop body runs exactly once on the empty record
before `break` (`query_engine.rs:214`). -/
def runAggregationQuery (q : CompiledSingleBatchQuery) :
    List (List Val × List Val) :=
  if q.cols.isEmpty then stepAgg q [] []
  else (batchRecords q.cols).foldl (stepAgg q) []

/-! ### Query driver (`query_engine.rs:97-157`) -/

/-- A compiled query (`query_engine.rs:31`). -/
structure CompiledQuery where
  subqueries : List CompiledSingleBatchQuery
  outputColnames : List String
  aggregate : List Aggregator
  compiledOrderBy : Option Expr
  limit : LimitClause
deriving DecidableEq, Repr

/-- The non-aggregate driver loop (`query_engine.rs:105-112`): extend the
combined rows with each batch's select result and stop early once there is
no order-by, the offset is zero, and strictly more than `limit` rows have
been collected. -/
def selectLoop (q : CompiledQuery) :
    List CompiledSingleBatchQuery → List (List Val) → List (List Val)
  | [], acc => acc
  | sq :: rest, acc =>
    let acc2 := acc ++ runSelectQuery sq
    if q.compiledOrderBy.isNone ∧ q.limit.offset = 0 ∧ q.limit.limit < acc2.length
    then acc2
    else selectLoop q rest acc2

/-- The cross-batch accumulator merge (`query_engine.rs:124-126`):
`accumulator2[i] = agg_func.combine(&accumulator1[i], &accumulator2[i])`
pointwise over the query's aggregator list. -/
def combineAccs : List Aggregator → List Val → List Val → List Val
  | agg :: aggs, a :: a2, b :: b2 => agg.combine a b :: combineAccs aggs a2 b2
  | _, _, _ => []

/-- Merging one emitted `(key, accumulator)` pair of a batch result into the
global groups map (`query_engine.rs:122-131`): combine pointwise when the
key is present, insert otherwise. -/
def mergeOnePair (aggs : List Aggregator)
    (g : List (List Val × List Val)) (p : List Val × List Val) :
    List (List Val × List Val) :=
  updateGroup g p.1
    (match lookupGroup g p.1 with
     | some acc2 => combineAccs aggs p.2 acc2
     | none => p.2)

/-- Merging a whole batch result into the global groups map
(`query_engine.rs:122-131`). -/
def mergeGroups (aggs : List Aggregator) (g : List (List Val × List Val))
    (batch : List (List Val × List Val)) : List (List Val × List Val) :=
  batch.foldl (mergeOnePair aggs) g

/-- Variant rank used by the modelled ordering on runtime values. -/
def valRank : Val → Nat
  | .Null => 0
  | .Bool _ => 1
  | .Int _ => 2
  | .Str _ => 3

/-- Modelled from the spec: the ordering on runtime values behind
`sort_by_key` (`query_engine.rs:143`); no verified claim exercises
`order_by`, every claim about ordering requires `compiled_order_by` to be
`None`. Values are ranked by variant and then by payload. -/
def valLe : Val → Val → Bool
  | .Int x, .Int y => decide (x ≤ y)
  | .Str x, .Str y => decide (x ≤ y)
  | .Bool x, .Bool y => !x || y
  | a, b => decide (valRank a ≤ valRank b)

/-- Stable insertion used to model the stable `sort_by_key`: an element is
inserted after every element that compares `≤` to it, so ties keep their
original order. -/
def insertLe {α : Type} (le : α → α → Bool) (x : α) : List α → List α
  | [] => [x]
  | y :: ys => if le y x then y :: insertLe le x ys else x :: y :: ys

/-- Stable sort modelling `Vec::sort_by_key` (`query_engine.rs:143`). -/
def sortByKeyStable {α : Type} (le : α → α → Bool) : List α → List α
  | [] => []
  | x :: xs => insertLe le x (sortByKeyStable le xs)

/-- The query result (`query_engine.rs:46`): column names and materialized
rows. The `stats` field (wall-clock runtime and scan counters) is timing
telemetry and is not modelled. -/
structure QueryResult where
  colnames : List String
  rows : List (List RawVal)
deriving DecidableEq, Repr

/-- `CompiledQuery::run` (`query_engine.rs:98-157`): combine per-batch
results (row concatenation with the early break, or the aggregate group
merge followed by `group ++ accumulator` materialization), sort when an
order-by is present, apply `skip(offset).take(limit)` and convert to
`RawVal` rows. -/
def CompiledQuery.run (q : CompiledQuery) : QueryResult :=
  let resultRows :=
    if q.aggregate.length = 0 then
      selectLoop q q.subqueries []
    else
      let groups := q.subqueries.foldl
        (fun g sq => mergeGroups q.aggregate g (runAggregationQuery sq)) []
      groups.map fun p => p.1 ++ p.2
  let sorted :=
    match q.compiledOrderBy with
    | some e => sortByKeyStable (fun r1 r2 => valLe (e.eval r1) (e.eval r2)) resultRows
    | none => resultRows
  { colnames := q.outputColnames,
    rows := ((sorted.drop q.limit.offset).take q.limit.limit).map
      fun r => r.map rawValFrom }

/-! ### Result column names (`query_engine.rs:289-312`) -/

/-- The select half of `Query::result_column_names`: a `ColName` contributes
its name; any other expression increments the shared `anon_columns` counter
(initially −1) and contributes `col_{counter}`. -/
def selectColNames : List Expr → Int → List String
  | [], _ => []
  | .ColName s :: rest, anon => s :: selectColNames rest anon
  | _ :: rest, anon => ("col_" ++ toString (anon + 1)) :: selectColNames rest (anon + 1)

/-- The aggregate half of `Query::result_column_names`: every aggregate
increments the shared `anon_aggregates` counter (initially −1) and
contributes `count_{counter}` or `sum_{counter}` by aggregator kind. -/
def aggregateColNames : List (Aggregator × Expr) → Int → List String
  | [], _ => []
  | (.Count, _) :: rest, anon =>
    ("count_" ++ toString (anon + 1)) :: aggregateColNames rest (anon + 1)
  | (.Sum, _) :: rest, anon =>
    ("sum_" ++ toString (anon + 1)) :: aggregateColNames rest (anon + 1)

/-- `Query::result_column_names` (`query_engine.rs:289`): select column
names chained with aggregate column names, each with its own counter
starting at −1. -/
def resultColumnNames (select : List Expr)
    (aggregate : List (Aggregator × Expr)) : List String :=
  selectColNames select (-1) ++ aggregateColNames aggregate (-1)

/-! ### CSV ingestion (`ingest/csv_loader.rs`)

The standard-library parsers `str::parse::<i64>` and `str::parse::<f64>`
followed by `as i64` truncation are external to the repository; they are
taken as parameters `parseI64` (successful integer parses) and `parseF64`
(successful float parses already truncated toward zero to `i64`), so every
theorem below holds for any implementation of them. -/

/-- The per-column union type record `ColType` (`csv_loader.rs:197`). -/
structure ColType where
  contains_string : Bool
  contains_int : Bool
  contains_null : Bool
deriving DecidableEq, Repr

/-- `ColType::determine` (`csv_loader.rs:224`): empty ⇒ null; parseable as
i64 or f64 ⇒ int; otherwise string. -/
def ColType.determine (parseI64 parseF64 : String → Option Int) (s : String) :
    ColType :=
  if s.isEmpty then ⟨false, false, true⟩
  else if (parseI64 s).isSome || (parseF64 s).isSome then ⟨false, true, false⟩
  else ⟨true, false, false⟩

/-- `BitOr for ColType` (`csv_loader.rs:235`): fieldwise or. -/
def ColType.or (a b : ColType) : ColType :=
  ⟨a.contains_string || b.contains_string,
   a.contains_int || b.contains_int,
   a.contains_null || b.contains_null⟩

/-- The `types` field after pushing `data` into a fresh `RawCol`
(`RawCol::push`, `csv_loader.rs:154`): the or-fold of `determine` over the
cells, starting from `ColType::nothing()`. -/
def typesOf (parseI64 parseF64 : String → Option Int) (data : List String) :
    ColType :=
  data.foldl (fun t s => t.or (ColType.determine parseI64 parseF64 s))
    ⟨false, false, false⟩

/-- The per-cell conversion of the int branch of `RawCol::finalize`
(`csv_loader.rs:169-177`): empty ⇒ 0; i64-parseable ⇒ that integer;
otherwise f64-parseable ⇒ that float truncated; otherwise the
`unreachable!` panic, modelled as `none`. -/
def convertIntCell (parseI64 parseF64 : String → Option Int) (s : String) :
    Option Int :=
  if s.isEmpty then some 0
  else
    match parseI64 s with
    | some n => some n
    | none =>
      match parseF64 s with
      | some f => some f
      | none => none

/-- The finalized column shapes produced by `RawCol::finalize`
(`csv_loader.rs:159`): a dictionary string column, an integer column over
the converted cell values, or an all-null column of the given length. -/
inductive FinalizedColumn where
  | stringCol (data : List String)
  | intCol (values : List Int)
  | nullCol (len : Nat)
deriving DecidableEq, Repr

/-- The raw ingested column (`csv_loader.rs:141`). -/
structure RawCol where
  types : ColType
  data : List String
deriving DecidableEq, Repr

/-- `RawCol::finalize` (`csv_loader.rs:159`): strings present ⇒ string
column; else ints present ⇒ convert every cell to i64 (a `none` models the
`unreachable!` panic); else ⇒ null column of the data length. -/
def RawCol.finalize (parseI64 parseF64 : String → Option Int) (c : RawCol) :
    Option FinalizedColumn :=
  if c.types.contains_string then some (.stringCol c.data)
  else if c.types.contains_int then
    (c.data.mapM (convertIntCell parseI64 parseF64)).map .intCol
  else some (.nullCol c.data.length)

/-- The specification's words for the ints-and-nulls conversion (§4.9):
"parse each cell to i64 (empty → 0; int-parseable → i64; float-parseable →
truncate to i64; else unreachable)". -/
def specIntCellValue (parseI64 parseF64 : String → Option Int) (s : String) :
    Int :=
  if s.isEmpty then 0
  else
    match parseI64 s with
    | some n => n
    | none => (parseF64 s).getD 0

/-! ### Vector operators (`engine/vector_op/`) -/

/-- `AdditionVS::execute` (`addition_vs.rs:13-21`) in terms of the output
slot's previous contents, the input data decoded to i64 (`to_i64` of any
`GenericIntVec` width is total) and the i64 constant: clear the output when
streaming, then append the wrapping sums. -/
def additionVSExecute (stream : Bool) (prevOutput : List Int)
    (data : List Int) (c : Int) : List Int :=
  (if stream then [] else prevOutput) ++ data.map fun d => wrap64 (d + c)

/-- `VecConstBoolOperator::<T, U, Op>::execute`
(`vec_const_bool_op.rs:36-44`) in terms of the output bit vector's previous
contents, the input data and the constant: truncate the output to 0 when
streaming, then push `Op::perform(d, c)` per element. -/
def vecConstBoolExecute {T U : Type} (perform : T → U → Bool) (stream : Bool)
    (prevOutput : List Bool) (data : List T) (c : U) : List Bool :=
  (if stream then [] else prevOutput) ++ data.map fun d => perform d c

/-- `LessThanInt::perform` (`vec_const_bool_op.rs:66`) with the left operand
already widened to i64. -/
def lessThanIntPerform (l r : Int) : Bool := decide (l < r)

/-- `EqualsInt::perform` (`vec_const_bool_op.rs:82`) with the left operand
already widened to i64. -/
def equalsIntPerform (l r : Int) : Bool := decide (l = r)

/-! ### Concrete queries used to instantiate the theorems -/

/-- `SELECT a LIMIT 2 OFFSET 1;` compiled over three one-row batches
`[1]`, `[2]`, `[3]` (spec §8 scenario 5). -/
def limitExampleQuery : CompiledQuery :=
  { subqueries :=
      [⟨[.Col 0], .Const (.Bool true), [], [[.Int 1]]⟩,
       ⟨[.Col 0], .Const (.Bool true), [], [[.Int 2]]⟩,
       ⟨[.Col 0], .Const (.Bool true), [], [[.Int 3]]⟩],
    outputColnames := ["a"],
    aggregate := [],
    compiledOrderBy := none,
    limit := ⟨2, 1⟩ }

/-- `SELECT count(a), sum(b);` compiled over the single batch
`t(a,b) = (1,10),(2,20),(3,30)` (spec §8 scenario 2), with limit clause
`(n, 0)`: select list empty, both columns referenced (`a` at index 0, `b` at
index 1), filter `Const(true)`. -/
def countSumQuery (n : Nat) : CompiledQuery :=
  { subqueries :=
      [⟨[], .Const (.Bool true), [(.Count, .Col 0), (.Sum, .Col 1)],
        [[.Int 1, .Int 2, .Int 3], [.Int 10, .Int 20, .Int 30]]⟩],
    outputColnames :=
      resultColumnNames [] [(.Count, .ColName "a"), (.Sum, .ColName "b")],
    aggregate := [.Count, .Sum],
    compiledOrderBy := none,
    limit := ⟨n, 0⟩ }

/-- `SELECT count(a), sum(a) WHERE a = 5;` compiled over the single batch
`a = [1,2,3]`: a filter matching zero rows. -/
def emptyFilterQuery : CompiledQuery :=
  { subqueries :=
      [⟨[], .Func .Equals (.Col 0) (.Const (.Int 5)),
        [(.Count, .Col 0), (.Sum, .Col 0)], [[.Int 1, .Int 2, .Int 3]]⟩],
    outputColnames := ["count_0", "sum_1"],
    aggregate := [.Count, .Sum],
    compiledOrderBy := none,
    limit := ⟨100, 0⟩ }

/-- Concrete `str::parse::<i64>` stand-in for witnesses: parses only "7". -/
def exampleParseI64 (s : String) : Option Int :=
  if s = "7" then some 7 else none

/-- Concrete truncating `str::parse::<f64>` stand-in for witnesses: parses
only "2.9", truncating to 2. -/
def exampleParseF64 (s : String) : Option Int :=
  if s = "2.9" then some 2 else none

/-! ## Claims -/

/-- C10: for every `IntegerOffsetColumn<W>` with W in {u8, u16, u32}, the
`ColumnCodec` methods `encoded_type()` and `ref_encoded_type()` return
`Type::U8` and `Type::RefU8` respectively; the reported encoded type tag
does not vary with the code width W. -/
theorem encoded_type_tag_constant :
    ∀ w : Width, encodedType w = Ty.U8 ∧ refEncodedType w = Ty.RefU8 := by
  intro w
  cases w <;> exact ⟨rfl, rfl⟩

/-- C8: on every `execute` call with `stream = true`, both `AdditionVS` and
`VecConstBoolOperator` clear their output buffer before appending, so the
output afterwards is exactly the map of the operator over the current input
slot contents, independent of the buffer's previous contents. -/
theorem stream_execute_clears_output :
    (∀ (prev data : List Int) (c : Int),
      additionVSExecute true prev data c = data.map fun d => wrap64 (d + c)) ∧
    (∀ (T U : Type) (perform : T → U → Bool) (prev : List Bool)
      (data : List T) (c : U),
      vecConstBoolExecute perform true prev data c = data.map fun d => perform d c) :=
  ⟨fun _ _ _ => rfl, fun _ _ _ _ _ _ => rfl⟩

/-- C9: when an input element of `AdditionVS` (decoded to i64) plus the i64
constant leaves the i64 range, the value appended to the output is the
two's-complement wrapped sum: the unique value in the i64 range congruent to
the exact sum modulo 2^64. No fault is raised: `execute` is total and
produces the element. -/
theorem additionVS_overflow_wraps (d c : Int)
    (h : i64Max < d + c ∨ d + c < i64Min) :
    additionVSExecute false [] [d] c = [wrap64 (d + c)] ∧
    i64Min ≤ wrap64 (d + c) ∧ wrap64 (d + c) ≤ i64Max ∧
    (2 ^ 64 : Int) ∣ (d + c - wrap64 (d + c)) :=
  ⟨rfl, wrap64_lower _, wrap64_upper _, wrap64_dvd_sub _⟩

/-- Witness for C9 at the concrete overflowing input `i64Max + 1`. -/
theorem additionVS_overflow_wraps_witness :
    additionVSExecute false [] [i64Max] 1 = [wrap64 (i64Max + 1)] ∧
    i64Min ≤ wrap64 (i64Max + 1) ∧ wrap64 (i64Max + 1) ≤ i64Max ∧
    (2 ^ 64 : Int) ∣ (i64Max + 1 - wrap64 (i64Max + 1)) :=
  additionVS_overflow_wraps i64Max 1 (Or.inl (by decide))

/-- C2 counterexample: at `min = -(2^62)`, `max = 2^62` the i64 subtraction
`max - min` wraps to `-(2^63)`, so `IntegerColumn::new` chooses the u8
offset encoding even though the exact difference `2^63` exceeds
`u32::MAX`, where the narrowest-width rule requires the plain i64 column. -/
theorem width_selection_counterexample :
    integerColumnNew (-(2 ^ 62)) (2 ^ 62) = .offset .u8 ∧
    narrowestWidthSpec (-(2 ^ 62)) (2 ^ 62) = .plain ∧
    integerColumnNew (-(2 ^ 62)) (2 ^ 62) ≠ narrowestWidthSpec (-(2 ^ 62)) (2 ^ 62) := by
  refine ⟨by decide, by decide, by decide⟩

/-- C2 amended: whenever the i64 subtraction `max - min` does not overflow
(`min ≤ max` and the exact difference is at most `i64::MAX`), the encoding
chosen by `IntegerColumn::new` is the narrowest of {u8, u16, u32, i64} such
that `max − min ≤ W::MAX`. -/
theorem width_selection_no_overflow (minV maxV : Int)
    (h1 : minV ≤ maxV) (h2 : maxV - minV ≤ i64Max) :
    integerColumnNew minV maxV = narrowestWidthSpec minV maxV := by
  have hd : wrap64 (maxV - minV) = maxV - minV :=
    wrap64_eq_self (by unfold i64Min; omega) h2
  simp only [integerColumnNew, narrowestWidthSpec, hd, Width.max]

/-- Witness for C2's amended theorem at `min = 0`, `max = 300` (u16). -/
theorem width_selection_no_overflow_witness :
    integerColumnNew 0 300 = narrowestWidthSpec 0 300 ∧
    integerColumnNew 0 300 = .offset .u16 :=
  ⟨width_selection_no_overflow 0 300 (by decide) (by decide), by decide⟩

/-- C4: for every integer offset column with offset `min` holding values in
`[min, max]` encodable at width `w` (`max − min ≤ W::MAX`), encoding a value
`v` in `[min, max]` succeeds and decoding the code (`code as i64 + offset`)
yields exactly `v`: `decode(encode(v)) = v`. -/
theorem offset_encode_decode_roundtrip (w : Width) (minV maxV v : Int)
    (hmin : i64Min ≤ minV) (hmax : maxV ≤ i64Max)
    (h1 : minV ≤ v) (h2 : v ≤ maxV) (hw : maxV - minV ≤ w.max) :
    ∃ code, encodeOffset w minV v = some code ∧ decodeOffset minV code = v := by
  have hwmax : w.max ≤ 4294967295 := by cases w <;> simp [Width.max]
  have hnn : (0 : Int) ≤ v - minV := by omega
  have hub : v - minV ≤ w.max := by omega
  have hself : wrap64 (v - minV) = v - minV := by
    apply wrap64_eq_self
    · unfold i64Min
      omega
    · unfold i64Max
      omega
  refine ⟨v - minV, ?_, ?_⟩
  · unfold encodeOffset widthFrom
    rw [hself]
    simp [hnn, hub]
  · unfold decodeOffset
    have : v - minV + minV = v := by ring
    rw [this]
    apply wrap64_eq_self
    · omega
    · omega

/-- Witness for C4 at width u8, offset 5, range [5, 10], value 7. -/
theorem offset_encode_decode_roundtrip_witness :
    (∃ code, encodeOffset .u8 5 7 = some code ∧ decodeOffset 5 code = 7) ∧
    encodeOffset Width.u8 5 7 = some 2 ∧ decodeOffset 5 2 = 7 :=
  ⟨offset_encode_decode_roundtrip .u8 5 10 7 (by decide) (by decide)
    (by decide) (by decide) (by decide), by decide, by decide⟩

/-- Dropping and taking after the short-circuiting select loop gives the
same window as over the full concatenation: the loop only breaks when the
offset is zero and strictly more than `limit` rows are already collected,
at which point the collected prefix already covers `take limit`. -/
theorem selectLoop_drop_take (q : CompiledQuery)
    (subqs : List CompiledSingleBatchQuery) (acc : List (List Val)) :
    ((selectLoop q subqs acc).drop q.limit.offset).take q.limit.limit =
      (((acc ++ (subqs.map runSelectQuery).flatten).drop q.limit.offset).take
        q.limit.limit) := by
  induction subqs generalizing acc with
  | nil => simp [selectLoop]
  | cons sq rest ih =>
    simp only [selectLoop, List.map_cons, List.flatten_cons]
    by_cases hb : q.compiledOrderBy.isNone ∧ q.limit.offset = 0 ∧
        q.limit.limit < (acc ++ runSelectQuery sq).length
    · rw [if_pos hb]
      obtain ⟨-, hoff, hlen⟩ := hb
      rw [hoff, List.drop_zero, List.drop_zero, ← List.append_assoc,
        List.take_append_of_le_length (le_of_lt hlen)]
    · rw [if_neg hb, ih]
      rw [List.append_assoc]

/-- C1: for a query with no ORDER BY and no aggregation and limit clause
`(n, k)`, the result rows are exactly rows `[k, k+n)` of the naive scan:
batches in driver order, each contributing, in scan order, the selected
rows whose filter evaluates to true — even though the driver may stop
iterating batches early. -/
theorem limit_offset_select_naive_scan (q : CompiledQuery)
    (hAgg : q.aggregate = []) (hOrd : q.compiledOrderBy = none) :
    q.run.rows =
      ((((q.subqueries.map runSelectQuery).flatten).drop q.limit.offset).take
        q.limit.limit).map (fun r => r.map rawValFrom) := by
  unfold CompiledQuery.run
  rw [hAgg, hOrd]
  simp only [List.length_nil, eq_self_iff_true, if_true]
  rw [selectLoop_drop_take q q.subqueries []]
  simp

/-- Witness for C1: `SELECT a LIMIT 2 OFFSET 1;` over three one-row batches
yields rows `[[2],[3]]`, matching rows [1, 3) of the naive scan. -/
theorem limit_offset_select_naive_scan_witness :
    limitExampleQuery.run.rows =
      (((limitExampleQuery.subqueries.map runSelectQuery).flatten.drop 1).take 2).map
        (fun r => r.map rawValFrom) ∧
    limitExampleQuery.run.rows = [[RawVal.Int 2], [RawVal.Int 3]] :=
  ⟨limit_offset_select_naive_scan limitExampleQuery rfl rfl, by decide⟩

/-- The `contains_string` bit of the or-fold is the disjunction of the
per-cell `determine` bits. -/
theorem typesOf_contains_string (p f : String → Option Int)
    (data : List String) :
    (typesOf p f data).contains_string =
      data.any fun s => (ColType.determine p f s).contains_string := by
  unfold typesOf
  suffices hgen : ∀ init : ColType,
      (data.foldl (fun t s => t.or (ColType.determine p f s)) init).contains_string =
        (init.contains_string ||
          data.any fun s => (ColType.determine p f s).contains_string) by
    rw [hgen ⟨false, false, false⟩]
    simp
  induction data with
  | nil => intro init; simp
  | cons a t ih =>
    intro init
    rw [List.foldl_cons, ih (init.or (ColType.determine p f a)), List.any_cons]
    simp [ColType.or, Bool.or_assoc]

/-- A cell whose `determine` result carries no string bit converts exactly
by the spec's cascade and never reaches the `unreachable!` branch. -/
theorem convertIntCell_eq_spec (p f : String → Option Int) (s : String)
    (h : (ColType.determine p f s).contains_string = false) :
    convertIntCell p f s = some (specIntCellValue p f s) := by
  unfold ColType.determine at h
  unfold convertIntCell specIntCellValue
  by_cases he : s.isEmpty
  · simp [he]
  · simp only [he, if_neg, Bool.false_eq_true, ite_false] at h ⊢
    cases hp : p s with
    | some n => simp
    | none =>
      cases hf : f s with
      | some m => simp
      | none =>
        rw [hp, hf] at h
        simp at h

/-- `mapM` over `Option` succeeds with the pointwise images when every
element maps to `some`. -/
theorem mapM_eq_map_of_forall {α β : Type} (g : α → Option β) (h : α → β) :
    ∀ l : List α, (∀ s ∈ l, g s = some (h s)) → l.mapM g = some (l.map h) := by
  intro l
  induction l with
  | nil => intro _; rfl
  | cons a t ih =>
    intro hall
    rw [List.mapM_cons, hall a (by simp), ih fun s hs => hall s (by simp [hs])]
    rfl

/-- C7: finalizing an ingested column whose cells contain only ints and
nulls (no strings) converts each cell to i64 by the cascade: empty string →
0; i64-parseable → that integer; otherwise f64-parseable → that float
truncated to i64; no cell reaches the `unreachable!` branch. Stated for any
implementations `p` (integer parse) and `f` (float parse + truncation) of
the standard-library parsers. -/
theorem ingest_int_finalize_conversion (p f : String → Option Int)
    (data : List String)
    (hs : (typesOf p f data).contains_string = false)
    (hi : (typesOf p f data).contains_int = true) :
    RawCol.finalize p f ⟨typesOf p f data, data⟩ =
      some (.intCol (data.map (specIntCellValue p f))) ∧
    ∀ s ∈ data,
      (s.isEmpty = true → specIntCellValue p f s = 0) ∧
      (∀ n, p s = some n → s.isEmpty = false → specIntCellValue p f s = n) ∧
      (s.isEmpty = false → p s = none → ∀ m, f s = some m →
        specIntCellValue p f s = m) := by
  have hcells : ∀ s ∈ data, (ColType.determine p f s).contains_string = false := by
    rw [typesOf_contains_string] at hs
    intro s hsin
    by_contra hc
    have : data.any (fun s => (ColType.determine p f s).contains_string) = true :=
      List.any_eq_true.mpr ⟨s, hsin, by simpa using hc⟩
    rw [this] at hs
    exact Bool.true_eq_false.mp hs
  constructor
  · unfold RawCol.finalize
    simp only [hs, hi, Bool.false_eq_true, ite_false, ite_true]
    rw [mapM_eq_map_of_forall _ _ data
      fun s hsin => convertIntCell_eq_spec p f s (hcells s hsin)]
    rfl
  · intro s _
    unfold specIntCellValue
    refine ⟨fun he => by simp [he], fun n hn he => by simp [he, hn], ?_⟩
    intro he hp m hm
    simp [he, hp, hm]

/-- Witness for C7 on the cells `["7", "", "2.9"]` with concrete parsers:
the finalized integer column is `[7, 0, 2]`. -/
theorem ingest_int_finalize_conversion_witness :
    RawCol.finalize exampleParseI64 exampleParseF64
      ⟨typesOf exampleParseI64 exampleParseF64 ["7", "", "2.9"],
       ["7", "", "2.9"]⟩ =
      some (.intCol [7, 0, 2]) :=
  ((ingest_int_finalize_conversion exampleParseI64 exampleParseF64
    ["7", "", "2.9"] (by decide) (by decide)).1).trans (by decide)

/-- Wrapping addition absorbs an inner wrap on the right operand too. -/
theorem wrap64_add_right (a b : Int) :
    wrap64 (a + wrap64 b) = wrap64 (a + b) := by
  rw [Int.add_comm a (wrap64 b), wrap64_add_left, Int.add_comm]

/-- Accumulator addition is commutative. -/
theorem addVal_comm (a b : Val) : addVal a b = addVal b a := by
  cases a <;> cases b <;> simp [addVal, Int.add_comm]

/-- Accumulator addition is left-commutative. -/
theorem addVal_left_comm (a b c : Val) :
    addVal a (addVal b c) = addVal b (addVal a c) := by
  cases a <;> cases b <;> cases c <;> simp [addVal]
  rw [wrap64_add_right, wrap64_add_right]
  congr 1
  ring

/-- Both aggregators combine by accumulator addition. -/
theorem aggregator_combine_eq_addVal (g : Aggregator) (a b : Val) :
    g.combine a b = addVal a b := by
  cases g <;> rfl

/-- The pointwise cross-batch combine is commutative. -/
theorem combineAccs_comm (aggs : List Aggregator) (a b : List Val) :
    combineAccs aggs a b = combineAccs aggs b a := by
  induction aggs generalizing a b with
  | nil => rfl
  | cons g gs ih =>
    cases a with
    | nil => cases b <;> rfl
    | cons x a2 =>
      cases b with
      | nil => rfl
      | cons y b2 =>
        simp only [combineAccs, aggregator_combine_eq_addVal]
        rw [addVal_comm, ih]

/-- The pointwise cross-batch combine is left-commutative. -/
theorem combineAccs_left_comm (aggs : List Aggregator) (a b c : List Val) :
    combineAccs aggs a (combineAccs aggs b c) =
      combineAccs aggs b (combineAccs aggs a c) := by
  induction aggs generalizing a b c with
  | nil => rfl
  | cons g gs ih =>
    cases a with
    | nil => cases b <;> cases c <;> simp [combineAccs]
    | cons x a2 =>
      cases b with
      | nil => cases c <;> simp [combineAccs]
      | cons y b2 =>
        cases c with
        | nil => simp [combineAccs]
        | cons z c2 =>
          simp only [combineAccs, aggregator_combine_eq_addVal]
          rw [addVal_left_comm, ih]

/-- Lookup after insert-or-replace. -/
theorem lookupGroup_updateGroup (g : List (List Val × List Val))
    (key k v : List Val) :
    lookupGroup (updateGroup g key v) k =
      if k = key then some v else lookupGroup g k := by
  induction g with
  | nil =>
    simp only [updateGroup, lookupGroup]
  | cons p rest ih =>
    obtain ⟨k2, w⟩ := p
    by_cases h1 : key = k2
    · subst h1
      by_cases h2 : k = key
      · subst h2
        simp [updateGroup, lookupGroup]
      · simp [updateGroup, lookupGroup, h2]
    · by_cases h2 : k = k2
      · subst h2
        have hne : ¬k = key := fun h => h1 h.symm
        simp [updateGroup, lookupGroup, h1, hne]
      · simp [updateGroup, lookupGroup, h1, h2, ih]

/-- The per-key accumulation step mirrored by one `mergeOnePair`. -/
def stepFor (aggs : List Aggregator) (k : List Val)
    (a : Option (List Val)) (p : List Val × List Val) : Option (List Val) :=
  if p.1 = k then
    some (match a with
          | some acc2 => combineAccs aggs p.2 acc2
          | none => p.2)
  else a

/-- Looking one key up after merging a batch is a fold of `stepFor` over the
batch's emitted pairs, starting from the key's current global binding. -/
theorem lookupGroup_mergeGroups (aggs : List Aggregator)
    (batch : List (List Val × List Val)) :
    ∀ (g : List (List Val × List Val)) (k : List Val),
    lookupGroup (mergeGroups aggs g batch) k =
      batch.foldl (stepFor aggs k) (lookupGroup g k) := by
  induction batch with
  | nil => intro g k; rfl
  | cons p rest ih =>
    intro g k
    show lookupGroup (mergeGroups aggs (mergeOnePair aggs g p) rest) k = _
    rw [ih (mergeOnePair aggs g p) k, List.foldl_cons]
    congr 1
    unfold mergeOnePair stepFor
    rw [lookupGroup_updateGroup]
    by_cases hk : k = p.1
    · subst hk
      simp
    · have hne : ¬p.1 = k := fun h => hk h.symm
      rw [if_neg hk, if_neg hne]

/-- `stepFor` is right-commutative in the folded pairs. -/
theorem stepFor_comm (aggs : List Aggregator) (k : List Val)
    (a : Option (List Val)) (p q : List Val × List Val) :
    stepFor aggs k (stepFor aggs k a p) q =
      stepFor aggs k (stepFor aggs k a q) p := by
  unfold stepFor
  by_cases hp : p.1 = k <;> by_cases hq : q.1 = k <;> simp [hp, hq]
  cases a with
  | none => exact combineAccs_comm aggs q.2 p.2
  | some acc2 => exact combineAccs_left_comm aggs q.2 p.2 acc2

/-- C5: for aggregation queries (whose aggregators are Count and Sum, the
only ones), merging the per-batch partial group maps into the global map in
any order of batches and any order of emitted keys — any two batch lists
whose concatenated emissions are permutations of each other — yields the
same final mapping from group key to accumulator values. -/
theorem aggregate_merge_order_irrelevant (aggs : List Aggregator)
    (batches1 batches2 : List (List (List Val × List Val)))
    (hperm : batches1.flatten.Perm batches2.flatten) (k : List Val) :
    lookupGroup (batches1.foldl (mergeGroups aggs) []) k =
      lookupGroup (batches2.foldl (mergeGroups aggs) []) k := by
  have hfold : ∀ (batches : List (List (List Val × List Val)))
      (g : List (List Val × List Val)),
      lookupGroup (batches.foldl (mergeGroups aggs) g) k =
        batches.flatten.foldl (stepFor aggs k) (lookupGroup g k) := by
    intro batches
    induction batches with
    | nil => intro g; rfl
    | cons b rest ih =>
      intro g
      rw [List.foldl_cons, ih (mergeGroups aggs g b), List.flatten_cons,
        List.foldl_append, lookupGroup_mergeGroups aggs b g k]
  rw [hfold batches1 [], hfold batches2 []]
  exact hperm.foldl_eq' (fun x _ y _ z => stepFor_comm aggs k z x y) _

/-- Witness for C5: two batch orders (and shuffled keys) of the same
emitted `(key, accumulator)` pairs yield the same per-key lookups. -/
theorem aggregate_merge_order_irrelevant_witness :
    lookupGroup
      ([[([Val.Int 1], [Val.Int 2])],
        [([Val.Int 1], [Val.Int 3]), ([Val.Int 9], [Val.Int 5])]].foldl
        (mergeGroups [Aggregator.Sum]) []) [Val.Int 1] =
      lookupGroup
        ([[([Val.Int 9], [Val.Int 5]), ([Val.Int 1], [Val.Int 3])],
          [([Val.Int 1], [Val.Int 2])]].foldl
          (mergeGroups [Aggregator.Sum]) []) [Val.Int 1] ∧
    lookupGroup
      ([[([Val.Int 1], [Val.Int 2])],
        [([Val.Int 1], [Val.Int 3]), ([Val.Int 9], [Val.Int 5])]].foldl
        (mergeGroups [Aggregator.Sum]) []) [Val.Int 1] = some [Val.Int 5] :=
  ⟨aggregate_merge_order_irrelevant [Aggregator.Sum]
    [[([Val.Int 1], [Val.Int 2])],
     [([Val.Int 1], [Val.Int 3]), ([Val.Int 9], [Val.Int 5])]]
    [[([Val.Int 9], [Val.Int 5]), ([Val.Int 1], [Val.Int 3])],
     [([Val.Int 1], [Val.Int 2])]]
    (by decide) [Val.Int 1], by decide⟩

/-- C3 counterexample: `result_column_names` advances one shared
`anon_aggregates` counter across all aggregates, so
`SELECT count(a), sum(b);` is named `["count_0", "sum_1"]`, not the
claimed `["count_0", "sum_0"]`. -/
theorem count_sum_colnames_counterexample :
    resultColumnNames [] [(.Count, .ColName "a"), (.Sum, .ColName "b")] =
      ["count_0", "sum_1"] ∧
    resultColumnNames [] [(.Count, .ColName "a"), (.Sum, .ColName "b")] ≠
      ["count_0", "sum_0"] := by
  constructor <;> decide

/-- C3 amended: over `t(a,b) = (1,10),(2,20),(3,30)`, the query
`SELECT count(a), sum(b);` (with any limit clause admitting at least one
row) returns result column names `["count_0", "sum_1"]` and the single row
`[3, 60]`. -/
theorem count_sum_query_amended (n : Nat) (hn : 1 ≤ n) :
    (countSumQuery n).run.colnames = ["count_0", "sum_1"] ∧
    (countSumQuery n).run.rows = [[RawVal.Int 3, RawVal.Int 60]] := by
  obtain ⟨m, rfl⟩ : ∃ m, n = m + 1 := ⟨n - 1, by omega⟩
  constructor
  · rfl
  · have hred : (countSumQuery (m + 1)).run.rows =
        (List.take (m + 1) [[Val.Int 3, Val.Int 60]]).map
          fun r => r.map rawValFrom := rfl
    rw [hred, List.take_succ_cons, List.take_nil]
    rfl

/-- Witness for C3's amended theorem at limit 100. -/
theorem count_sum_query_amended_witness :
    (countSumQuery 100).run.colnames = ["count_0", "sum_1"] ∧
    (countSumQuery 100).run.rows = [[RawVal.Int 3, RawVal.Int 60]] :=
  count_sum_query_amended 100 (by decide)

/-- C6 counterexample: `SELECT count(a), sum(a) WHERE a = 5;` over the batch
`a = [1,2,3]` matches zero rows; the result has no rows at all, rather than
a row of the aggregator identities `[0, 0]`. -/
theorem empty_filter_identity_counterexample :
    emptyFilterQuery.run.rows = [] ∧
    emptyFilterQuery.run.rows ≠ [[RawVal.Int 0, RawVal.Int 0]] := by
  constructor <;> decide

/-- Folding the aggregation step over records that all fail the filter
leaves the groups map unchanged. -/
theorem stepAgg_foldl_filtered (q : CompiledSingleBatchQuery)
    (records : List (List Val))
    (hall : ∀ r ∈ records, q.filter.eval r ≠ .Bool true) :
    ∀ groups, records.foldl (stepAgg q) groups = groups := by
  induction records with
  | nil => intro groups; rfl
  | cons r rest ih =>
    intro groups
    rw [List.foldl_cons]
    have hr : stepAgg q groups r = groups := by
      unfold stepAgg
      rw [if_neg (hall r (by simp))]
    rw [hr]
    exact ih (fun r2 h2 => hall r2 (by simp [h2])) groups

/-- C6 amended: for every aggregation query whose filter matches zero rows
in every batch (each batch referencing at least one column), the groups map
stays empty, so the result contains no rows at all — the aggregator
identities Count→0, Sum→0 are never materialized into a result row. -/
theorem empty_filter_no_rows (q : CompiledQuery)
    (hAgg : q.aggregate ≠ [])
    (hsub : ∀ sq ∈ q.subqueries, sq.cols ≠ [] ∧
      ∀ r ∈ batchRecords sq.cols, sq.filter.eval r ≠ .Bool true) :
    q.run.rows = [] := by
  have hsq : ∀ sq ∈ q.subqueries, runAggregationQuery sq = [] := by
    intro sq hin
    obtain ⟨hc, hf⟩ := hsub sq hin
    unfold runAggregationQuery
    rw [if_neg (by simpa using hc)]
    exact stepAgg_foldl_filtered sq (batchRecords sq.cols) hf []
  have hglobal : q.subqueries.foldl
      (fun g sq => mergeGroups q.aggregate g (runAggregationQuery sq)) [] = [] := by
    have hgen : ∀ (l : List CompiledSingleBatchQuery),
        (∀ sq ∈ l, runAggregationQuery sq = []) →
        ∀ g, l.foldl (fun g sq => mergeGroups q.aggregate g (runAggregationQuery sq)) g = g := by
      intro l
      induction l with
      | nil => intro _ g; rfl
      | cons sq rest ih =>
        intro hl g
        rw [List.foldl_cons, hl sq (by simp)]
        exact ih (fun s hs => hl s (by simp [hs])) g
    exact hgen q.subqueries hsq []
  unfold CompiledQuery.run
  rw [if_neg (by simpa using hAgg), hglobal]
  cases q.compiledOrderBy <;> simp [sortByKeyStable]

/-- Witness for C6's amended theorem on the concrete zero-match query. -/
theorem empty_filter_no_rows_witness :
    emptyFilterQuery.run.rows = [] :=
  empty_filter_no_rows emptyFilterQuery (by decide) (by decide)

end LocustDB
